import Mathlib

/-!
Verification of the string-processing, debounce, registry and dispatch logic
of the yi-html-preview extension (src/extension.ts), via a shallow embedding:
strings are `List Char`, JS runtime primitives (`toLowerCase`, `indexOf`,
`String.prototype.replace` with the literal regex `/<base[^>]*>/gi`) are
modelled as executable Lean functions, and the event-driven parts
(document-change debouncing, panel registry, update dispatch) are modelled as
explicit state machines processing event traces.

The embedding covers the ASCII behaviour of JS case-folding; the exotic
Unicode special cases of `toLowerCase` (which the source never depends on)
are out of scope.
-/

/-- Uppercase ASCII letters, the domain on which JS `toLowerCase` acts in this
embedding. -/
def ucase : List Char :=
  [ 'A', 'B', 'C', 'D', 'E', 'F', 'G', 'H', 'I', 'J', 'K', 'L', 'M',
    'N', 'O', 'P', 'Q', 'R', 'S', 'T', 'U', 'V', 'W', 'X', 'Y', 'Z' ]

/-- ASCII lower-casing of one character: models JS `String.prototype.toLowerCase`
(and the case-folding of the regex `i` flag) on the ASCII range. -/
def lowerChar (c : Char) : Char :=
  if c ∈ ucase then Char.ofNat (c.toNat + 32) else c

/-- `l.toLowerCase()` for a JS string modelled as a character list. -/
def lowerList (l : List Char) : List Char := l.map lowerChar

/-- JS `String.prototype.indexOf(pat)`: index of the first occurrence of `pat`,
`none` when there is none. -/
def jsIndexOf? (pat : List Char) : List Char → Option Nat
  | [] => if pat = [] then some 0 else none
  | c :: cs =>
    if pat.isPrefixOf (c :: cs) then some 0
    else (jsIndexOf? pat cs).map (· + 1)

/-- JS `String.prototype.indexOf(pat, start)`: first occurrence at or after
index `start`. -/
def jsIndexOfFrom (pat l : List Char) (start : Nat) : Option Nat :=
  (jsIndexOf? pat (l.drop start)).map (· + start)

/-- The literal search pattern `'<head>'` of `injectBaseHref`. -/
def headPat : List Char := [ '<', 'h', 'e', 'a', 'd', '>' ]

/-- A match attempt of the regex `/<base[^>]*>/gi` can begin at the head of
this list: the first five characters case-fold to `<base`. -/
def startsWithBase : List Char → Prop
  | c0 :: c1 :: c2 :: c3 :: c4 :: _ =>
    lowerChar c0 = '<' ∧ lowerChar c1 = 'b' ∧ lowerChar c2 = 'a' ∧
    lowerChar c3 = 's' ∧ lowerChar c4 = 'e'
  | _ => False

instance : DecidablePred startsWithBase
  | _ :: _ :: _ :: _ :: _ :: _ =>
    inferInstanceAs (Decidable (_ ∧ _ ∧ _ ∧ _ ∧ _))
  | [] => inferInstanceAs (Decidable False)
  | [_] => inferInstanceAs (Decidable False)
  | [_, _] => inferInstanceAs (Decidable False)
  | [_, _, _] => inferInstanceAs (Decidable False)
  | [_, _, _, _] => inferInstanceAs (Decidable False)

/-- Consume characters up to and including the first `'>'` (the `[^>]*>` part
of the base-tag regex); `none` when no `'>'` remains, in which case the match
attempt fails. -/
def dropThroughGt : List Char → Option (List Char)
  | [] => none
  | c :: cs => if c = '>' then some cs else dropThroughGt cs

/-- Fueled scanner for `rawHtml.replace(/<base[^>]*>/gi, '')`: left-to-right,
non-overlapping matches are deleted, everything else is kept.  The fuel is
only a termination device; `removeBaseTags` supplies enough of it. -/
def removeBaseTagsAux : Nat → List Char → List Char
  | 0, l => l
  | _, [] => []
  | fuel + 1, c :: cs =>
    if startsWithBase (c :: cs) then
      match dropThroughGt (cs.drop 4) with
      | some rest => removeBaseTagsAux fuel rest
      | none => c :: removeBaseTagsAux fuel cs
    else c :: removeBaseTagsAux fuel cs

/-- `rawHtml.replace(/<base[^>]*>/gi, '')`, the removal pass of
`injectBaseHref`. -/
def removeBaseTags (l : List Char) : List Char :=
  removeBaseTagsAux l.length l

/-- Number of (non-overlapping, left-to-right) matches of `/<base[^>]*>/gi`
in a string: the number of base tags it contains, under the same notion of
base tag that the source's removal pass uses. -/
def countBaseTagsAux : Nat → List Char → Nat
  | 0, _ => 0
  | _, [] => 0
  | fuel + 1, c :: cs =>
    if startsWithBase (c :: cs) then
      match dropThroughGt (cs.drop 4) with
      | some rest => 1 + countBaseTagsAux fuel rest
      | none => countBaseTagsAux fuel cs
    else countBaseTagsAux fuel cs

/-- Number of base tags in a string (see `countBaseTagsAux`). -/
def countBaseTags (l : List Char) : Nat :=
  countBaseTagsAux l.length l

/-- The base-tag string produced by `getBaseHrefString` for a resolved href:
`<base href="HREF">`. -/
def baseTagOf (href : List Char) : List Char :=
  '<' :: 'b' :: 'a' :: 's' :: 'e' :: ' ' :: 'h' :: 'r' :: 'e' :: 'f' ::
  '=' :: '"' :: (href ++ [ '"', '>' ])

/-- `injectBaseHref(rawHtml, baseHrefTag)` from src/extension.ts.  In this
embedding `rawHtml` is always a string, so the JS guard
`typeof rawHtml !== 'string'` is vacuous and `rawHtml || ''` equals
`rawHtml`. -/
def injectBaseHref (rawHtml baseHrefTag : List Char) : List Char :=
  if baseHrefTag = [] then rawHtml
  else
    let cleanHtml := removeBaseTags rawHtml
    match jsIndexOf? headPat (lowerList cleanHtml) with
    | some headTagStart =>
      match jsIndexOfFrom [ '>' ] cleanHtml headTagStart with
      | some headTagEndPos =>
        cleanHtml.take (headTagEndPos + 1) ++ baseHrefTag ++
          cleanHtml.drop (headTagEndPos + 1)
      | none => baseHrefTag ++ cleanHtml
    | none => baseHrefTag ++ cleanHtml

/-- `injectBaseHrefIntoString(rawHtml, baseTag)`, the copy of the injection
algorithm embedded in the webview's control script (same regex literal, same
runtime primitives, same slicing). -/
def injectBaseHrefIntoString (rawHtml baseTag : List Char) : List Char :=
  if baseTag = [] then rawHtml
  else
    let cleanHtml := removeBaseTags rawHtml
    match jsIndexOf? headPat (lowerList cleanHtml) with
    | some headTagStart =>
      match jsIndexOfFrom [ '>' ] cleanHtml headTagStart with
      | some headTagEndPos =>
        cleanHtml.take (headTagEndPos + 1) ++ baseTag ++
          cleanHtml.drop (headTagEndPos + 1)
      | none => baseTag ++ cleanHtml
    | none => baseTag ++ cleanHtml

/-- No match attempt of the base-tag regex can begin anywhere in `l`: the
cleaned markup contains no case-insensitive `<base` occurrence at all. -/
def noBaseStart (l : List Char) : Prop :=
  ∀ i, i < l.length → ¬ startsWithBase (l.drop i)

instance (l : List Char) : Decidable (noBaseStart l) :=
  inferInstanceAs (Decidable (∀ i, i < l.length → ¬ startsWithBase (l.drop i)))

/-- The first occurrence of the literal `'<head>'` in the lower-cased string
`l` is at index `i`. -/
def firstHeadAt (l : List Char) (i : Nat) : Prop :=
  headPat.isPrefixOf ((lowerList l).drop i) = true ∧
  ∀ j, j < i → headPat.isPrefixOf ((lowerList l).drop j) = false

instance (l : List Char) (i : Nat) : Decidable (firstHeadAt l i) :=
  inferInstanceAs (Decidable (_ ∧ ∀ j, j < i → _ = false))

/-- The lower-cased string `l` contains no occurrence of the literal
`'<head>'`. -/
def noHeadTag (l : List Char) : Prop :=
  ∀ j, headPat.isPrefixOf ((lowerList l).drop j) = false

/-- A `<basefont size="3">` tag: not a base tag, but its name begins with
`base`. -/
def bfTag : List Char :=
  '<' :: 'b' :: 'a' :: 's' :: 'e' :: 'f' :: 'o' :: 'n' :: 't' :: ' ' ::
  's' :: 'i' :: 'z' :: 'e' :: '=' :: '"' :: '3' :: '"' :: '>' :: []

/-- A document whose only head opening tag carries attributes, so it is not
the literal `<head>`. -/
def headAttrsDoc : List Char := "<head lang=\"en\"></head>".toList

/-! ### Attribute escaper and an HTML-attribute decoder -/

/-- `unsafe.replace(/&/g, "&amp;")`: each `&` becomes `&amp;`, replacements
are not rescanned. -/
def replaceAmp : List Char → List Char
  | [] => []
  | c :: cs =>
    if c = '&' then '&' :: 'a' :: 'm' :: 'p' :: ';' :: replaceAmp cs
    else c :: replaceAmp cs

/-- `.replace(/"/g, "&quot;")`: each `"` becomes `&quot;`. -/
def replaceQuot : List Char → List Char
  | [] => []
  | c :: cs =>
    if c = '"' then '&' :: 'q' :: 'u' :: 'o' :: 't' :: ';' :: replaceQuot cs
    else c :: replaceQuot cs

/-- `escapeHtmlForAttributeValue` from src/extension.ts: escape `&` first,
then `"`.  The input is always a string in this embedding, so the guard
against non-string inputs is vacuous. -/
def escapeHtmlForAttributeValue (s : List Char) : List Char :=
  replaceQuot (replaceAmp s)

/-- An HTML-attribute decoder: maps `&amp;` back to `&` and `&quot;` back to
`"`, leaving everything else untouched. -/
def decodeAttr : List Char → List Char
  | '&' :: 'a' :: 'm' :: 'p' :: ';' :: rest => '&' :: decodeAttr rest
  | '&' :: 'q' :: 'u' :: 'o' :: 't' :: ';' :: rest => '"' :: decodeAttr rest
  | c :: cs => c :: decodeAttr cs
  | [] => []

/-! ### Base-href resolver -/

/-- The part of a document URI that `getBaseHrefString` inspects.  Path and
authority are consumed only by the host's `joinPath`/`asWebviewUri`, which are
external and enter the model through their result (`webviewParentUrl`). -/
structure DocUri where
  scheme : List Char
deriving DecidableEq

/-- The URI scheme of regular filesystem-backed documents. -/
def fileScheme : List Char := [ 'f', 'i', 'l', 'e' ]

/-- JS `str.endsWith('/')` for a string modelled as a character list. -/
def endsWithSlash (l : List Char) : Bool := l.getLast? == some '/'

/-- `getBaseHrefString(webview, documentUri)` from src/extension.ts.
`documentUri` is `none` when the JS value is absent; `webviewParentUrl` is the
string produced by `webview.asWebviewUri(Uri.joinPath(documentUri, '..'))`,
or `none` when that host call throws (the `catch` branch). -/
def getBaseHrefString (documentUri : Option DocUri)
    (webviewParentUrl : Option (List Char)) : List Char :=
  match documentUri with
  | none => []
  | some uri =>
    if uri.scheme = fileScheme then
      match webviewParentUrl with
      | none => []
      | some s =>
        let href := if endsWithSlash s then s else s ++ [ '/' ]
        "<base href=\"".toList ++ href ++ "\">".toList
    else []

/-! ### Host page and update dispatcher -/

/-- The dynamic payload of the host page assembled by `getWebviewHtml`; the
surrounding static control-bar markup, CSS and script text carry no data and
are not modelled.  `srcdoc` is the attribute-escaped injected document,
`scriptBaseTag` the base-tag string serialized into the control script. -/
structure HostPage where
  nonce : List Char
  srcdoc : List Char
  scriptBaseTag : List Char
deriving DecidableEq

/-- `getWebviewHtml(webview, rawUserHtml, documentUri)`: resolve the base tag,
inject it, escape for the srcdoc attribute.  The nonce (random in the source)
and the host-produced parent URL are inputs. -/
def getWebviewHtml (nonce rawUserHtml : List Char) (documentUri : Option DocUri)
    (webviewParentUrl : Option (List Char)) : HostPage :=
  let baseHrefTagString := getBaseHrefString documentUri webviewParentUrl
  { nonce := nonce
    srcdoc := escapeHtmlForAttributeValue (injectBaseHref rawUserHtml baseHrefTagString)
    scriptBaseTag := baseHrefTagString }

/-- A webview panel as `updateWebviewContent` sees it: `html` is `none` while
no host page has been loaded (`panel.webview.html` is empty). -/
structure WebPanel where
  html : Option HostPage
deriving DecidableEq

/-- A message posted into the webview (`panel.webview.postMessage`). -/
structure WvMsg where
  command : List Char
  html : List Char
deriving DecidableEq

/-- `updateWebviewContent(panel, document, forceHtmlReset)`: full host-page
rebuild when forced or when no host page is loaded, otherwise a single
incremental `updateContent` message carrying the document's raw text. -/
def updateWebviewContent (panel : WebPanel) (docText nonce : List Char)
    (documentUri : Option DocUri) (webviewParentUrl : Option (List Char))
    (forceHtmlReset : Bool) : WebPanel × List WvMsg :=
  if forceHtmlReset || panel.html.isNone then
    ({ html := some (getWebviewHtml nonce docText documentUri webviewParentUrl) }, [])
  else
    (panel, [ { command := "updateContent".toList, html := docText } ])


/-! ### Debounced change-driven updates -/

/-- A text-document change event: timestamp (ms), document identity, and the
document's full text after the edit. -/
structure Ev where
  t : Nat
  d : Nat
  txt : List Char
deriving DecidableEq

/-- State of the change handler: current text of every document, and the
single process-wide pending timer (`updateTimeout`), holding its deadline and
the identity whose panel and document the callback captured. -/
structure DebSt where
  text : Nat → List Char
  pending : Option (Nat × Nat)

/-- A dispatched update: (time it fires, target document identity, text that
`document.getText()` returns at that moment). -/
abbrev Upd := Nat × Nat × List Char

/-- Fire the pending timer if its deadline has passed by time `now`: the
callback runs `updateWebviewContent(activePanel, event.document, false)`,
reading the document's text at fire time. -/
def fireDue (s : DebSt) (now : Nat) : DebSt × List Upd :=
  match s.pending with
  | some p =>
    if p.1 ≤ now then (⟨s.text, none⟩, [ (p.1, p.2, s.text p.2) ])
    else (s, [])
  | none => (s, [])

/-- Process one change event (the `onDidChangeTextDocument` handler): a due
timer fires first; the edit updates the document text; if the edited document
has an active panel, the global timer is cleared and re-armed for 300ms with
this document captured.  Documents without a panel never touch the timer. -/
def debStep (panels : List Nat) (s : DebSt) (e : Ev) : DebSt × List Upd :=
  let fired := fireDue s e.t
  let s2 : DebSt := ⟨fun i => if i = e.d then e.txt else fired.1.text i, fired.1.pending⟩
  if e.d ∈ panels then (⟨s2.text, some (e.t + 300, e.d)⟩, fired.2)
  else (s2, fired.2)

/-- After the last event the pending timer, if any, eventually fires. -/
def debFlush (s : DebSt) : List Upd :=
  match s.pending with
  | some p => [ (p.1, p.2, s.text p.2) ]
  | none => []

/-- Run the change handler over a trace of edit events (times strictly
increasing), collecting every dispatched update. -/
def debRun (panels : List Nat) (s : DebSt) : List Ev → List Upd
  | [] => debFlush s
  | e :: es => (debStep panels s e).2 ++ debRun panels (debStep panels s e).1 es

/-- Initial handler state: no pending timer. -/
def debInit : DebSt := ⟨fun _ => [], none⟩

/-- The dispatched update `o` is justified by the trace `es`: some edit to
`o`'s document produced exactly `o`'s content, the update fires 300ms after
that edit, and no other edit to the same document lies between the two. -/
def JustOut (es : List Ev) (o : Upd) : Prop :=
  ∃ e ∈ es, e.d = o.2.1 ∧ e.txt = o.2.2 ∧ o.1 = e.t + 300 ∧
    ∀ e' ∈ es, e'.d = o.2.1 → e'.t ≤ e.t ∨ o.1 ≤ e'.t

/-- The dispatched update `o` stems from the timer already pending in state
`s`, and no event of `es` concerning a previewed document precedes its
deadline (otherwise the timer would have been cleared or replaced). -/
def FromPend (panels : List Nat) (s : DebSt) (es : List Ev) (o : Upd) : Prop :=
  s.pending = some (o.1, o.2.1) ∧ o.2.2 = s.text o.2.1 ∧
    ∀ e' ∈ es, e'.d ∈ panels → ¬ e'.t < o.1

/-! ### Panel registry -/

/-- Registry state: the `previewPanels` map as an association list from
document identity to panel handle, plus a counter allocating fresh panel
handles (a fresh `createWebviewPanel` result is distinct from every panel
created before). -/
structure RegSt where
  reg : List (Nat × Nat)
  nextId : Nat
deriving DecidableEq

/-- Registry-relevant events: a preview request for a document (the command
handler) and the disposal of a document's panel (user closes it, or the
document closes and `panel.dispose()` runs). -/
inductive PEvent where
  | preview (d : Nat)
  | close (d : Nat)

/-- Observable actions of the registry code. -/
inductive RegAction where
  | reveal (pid : Nat)
  | update (pid : Nat) (force : Bool)
  | create (d : Nat) (pid : Nat)
  | removeEntry (d : Nat)
deriving DecidableEq

/-- `previewPanels.get(d)` on the association list. -/
def lookupReg : List (Nat × Nat) → Nat → Option Nat
  | [], _ => none
  | (k, v) :: r, d => if k = d then some v else lookupReg r d

/-- One registry transition.  Preview of a registered identity reveals and
refreshes (`force = false`) the existing panel; preview of an unregistered
identity creates a fresh panel, registers it and force-renders it
(`updateWebviewContent(panel, document, true)`).  Disposal deletes the
registry entry (the `onDidDispose` handler). -/
def regStep (s : RegSt) : PEvent → RegSt × List RegAction
  | .preview d =>
    match lookupReg s.reg d with
    | some pid => (s, [ .reveal pid, .update pid false ])
    | none =>
      ({ reg := (d, s.nextId) :: s.reg, nextId := s.nextId + 1 },
       [ .create d s.nextId, .update s.nextId true ])
  | .close d =>
    match lookupReg s.reg d with
    | some _ => ({ s with reg := s.reg.filter (fun p => p.1 != d) }, [ .removeEntry d ])
    | none => (s, [])

/-- Initial registry: empty map. -/
def regInit : RegSt := ⟨[], 0⟩

/-- Registry state reached after a sequence of events. -/
def regRun (evs : List PEvent) : RegSt :=
  evs.foldl (fun s e => (regStep s e).1) regInit

/-- Registry invariant: identities are unique keys, and every registered
panel handle was allocated below the counter. -/
def RegInv (s : RegSt) : Prop :=
  (s.reg.map Prod.fst).Nodup ∧ ∀ p ∈ s.reg, p.2 < s.nextId

/-! ### Character facts -/

theorem lowerChar_eq_gt {c : Char} (h : lowerChar c = '>') : c = '>' := by
  by_cases hm : c ∈ ucase
  · rw [lowerChar, if_pos hm] at h
    exact absurd h (by fin_cases hm <;> decide)
  · rwa [lowerChar, if_neg hm] at h

theorem ne_gt_of_lowerChar {c x : Char} (hx : x ≠ '>') (h : lowerChar c = x) :
    c ≠ '>' := by
  intro hc
  subst hc
  exact hx (by rw [← h]; decide)

/-! ### Facts about `dropThroughGt` -/

theorem dropThroughGt_length {l r : List Char} (h : dropThroughGt l = some r) :
    r.length < l.length := by
  induction l with
  | nil => simp [dropThroughGt] at h
  | cons c cs ih =>
    rw [dropThroughGt] at h
    by_cases hc : c = '>'
    · rw [if_pos hc] at h
      cases h
      simp
    · rw [if_neg hc] at h
      exact Nat.lt_trans (ih h) (by simp)

theorem dropThroughGt_eq_none_iff {l : List Char} :
    dropThroughGt l = none ↔ '>' ∉ l := by
  induction l with
  | nil => simp [dropThroughGt]
  | cons c cs ih =>
    rw [dropThroughGt]
    by_cases hc : c = '>'
    · subst hc; simp
    · rw [if_neg hc]
      simp [ih, Ne.symm hc]

theorem dropThroughGt_append {a : List Char} (b : List Char) (ha : '>' ∉ a) :
    dropThroughGt (a ++ '>' :: b) = some b := by
  induction a with
  | nil => simp [dropThroughGt]
  | cons c cs ih =>
    have hc : c ≠ '>' := fun h => ha (h ▸ List.mem_cons_self c cs)
    rw [List.cons_append, dropThroughGt, if_neg hc]
    exact ih (fun h => ha (List.mem_cons_of_mem c h))

/-! ### Fuel irrelevance and unfolding equations for the scanners -/

theorem removeBaseTagsAux_congr :
    ∀ (f₁ : Nat) (f₂ : Nat) (l : List Char), l.length ≤ f₁ → l.length ≤ f₂ →
      removeBaseTagsAux f₁ l = removeBaseTagsAux f₂ l := by
  intro f₁
  induction f₁ with
  | zero =>
    intro f₂ l h₁ _
    have : l = [] := List.eq_nil_of_length_eq_zero (Nat.le_zero.mp h₁)
    subst this
    cases f₂ <;> rfl
  | succ f ih =>
    intro f₂ l h₁ h₂
    cases l with
    | nil => cases f₂ <;> rfl
    | cons c cs =>
      cases f₂ with
      | zero => exact absurd h₂ (by simp)
      | succ g =>
        have hcs₁ : cs.length ≤ f := by simpa using h₁
        have hcs₂ : cs.length ≤ g := by simpa using h₂
        rw [removeBaseTagsAux, removeBaseTagsAux]
        by_cases hs : startsWithBase (c :: cs)
        · rw [if_pos hs, if_pos hs]
          cases hd : dropThroughGt (cs.drop 4) with
          | none => exact congrArg (c :: ·) (ih g cs hcs₁ hcs₂)
          | some rest =>
            have hlt : rest.length < (cs.drop 4).length := dropThroughGt_length hd
            have hr : rest.length ≤ f :=
              Nat.le_trans (Nat.le_of_lt (Nat.lt_of_lt_of_le hlt (by simp))) hcs₁
            have hr₂ : rest.length ≤ g :=
              Nat.le_trans (Nat.le_of_lt (Nat.lt_of_lt_of_le hlt (by simp))) hcs₂
            exact ih g rest hr hr₂
        · rw [if_neg hs, if_neg hs]
          exact congrArg (c :: ·) (ih g cs hcs₁ hcs₂)

theorem countBaseTagsAux_congr :
    ∀ (f₁ : Nat) (f₂ : Nat) (l : List Char), l.length ≤ f₁ → l.length ≤ f₂ →
      countBaseTagsAux f₁ l = countBaseTagsAux f₂ l := by
  intro f₁
  induction f₁ with
  | zero =>
    intro f₂ l h₁ _
    have : l = [] := List.eq_nil_of_length_eq_zero (Nat.le_zero.mp h₁)
    subst this
    cases f₂ <;> rfl
  | succ f ih =>
    intro f₂ l h₁ h₂
    cases l with
    | nil => cases f₂ <;> rfl
    | cons c cs =>
      cases f₂ with
      | zero => exact absurd h₂ (by simp)
      | succ g =>
        have hcs₁ : cs.length ≤ f := by simpa using h₁
        have hcs₂ : cs.length ≤ g := by simpa using h₂
        rw [countBaseTagsAux, countBaseTagsAux]
        by_cases hs : startsWithBase (c :: cs)
        · rw [if_pos hs, if_pos hs]
          cases hd : dropThroughGt (cs.drop 4) with
          | none => exact ih g cs hcs₁ hcs₂
          | some rest =>
            have hlt : rest.length < (cs.drop 4).length := dropThroughGt_length hd
            have hr : rest.length ≤ f :=
              Nat.le_trans (Nat.le_of_lt (Nat.lt_of_lt_of_le hlt (by simp))) hcs₁
            have hr₂ : rest.length ≤ g :=
              Nat.le_trans (Nat.le_of_lt (Nat.lt_of_lt_of_le hlt (by simp))) hcs₂
            exact congrArg (fun n => 1 + n) (ih g rest hr hr₂)
        · rw [if_neg hs, if_neg hs]
          exact ih g cs hcs₁ hcs₂

theorem removeBaseTags_nil : removeBaseTags [] = [] := rfl

theorem countBaseTags_nil : countBaseTags [] = 0 := rfl

theorem removeBaseTags_cons_match {c : Char} {cs rest : List Char}
    (hs : startsWithBase (c :: cs)) (hd : dropThroughGt (cs.drop 4) = some rest) :
    removeBaseTags (c :: cs) = removeBaseTags rest := by
  have hr : rest.length ≤ cs.length :=
    Nat.le_trans (Nat.le_of_lt (dropThroughGt_length hd)) (by simp)
  rw [removeBaseTags, removeBaseTags, List.length_cons, removeBaseTagsAux, if_pos hs, hd]
  exact removeBaseTagsAux_congr cs.length rest.length rest hr (Nat.le_refl _)

theorem removeBaseTags_cons_nomatch {c : Char} {cs : List Char}
    (h : ¬ startsWithBase (c :: cs) ∨ dropThroughGt (cs.drop 4) = none) :
    removeBaseTags (c :: cs) = c :: removeBaseTags cs := by
  rw [removeBaseTags, removeBaseTags, List.length_cons, removeBaseTagsAux]
  rcases h with h | h
  · rw [if_neg h]
  · by_cases hs : startsWithBase (c :: cs)
    · rw [if_pos hs, h]
    · rw [if_neg hs]

theorem countBaseTags_cons_match {c : Char} {cs rest : List Char}
    (hs : startsWithBase (c :: cs)) (hd : dropThroughGt (cs.drop 4) = some rest) :
    countBaseTags (c :: cs) = 1 + countBaseTags rest := by
  have hr : rest.length ≤ cs.length :=
    Nat.le_trans (Nat.le_of_lt (dropThroughGt_length hd)) (by simp)
  rw [countBaseTags, countBaseTags, List.length_cons, countBaseTagsAux, if_pos hs, hd]
  exact congrArg (fun n => 1 + n)
    (countBaseTagsAux_congr cs.length rest.length rest hr (Nat.le_refl _))

theorem countBaseTags_cons_nomatch {c : Char} {cs : List Char}
    (h : ¬ startsWithBase (c :: cs) ∨ dropThroughGt (cs.drop 4) = none) :
    countBaseTags (c :: cs) = countBaseTags cs := by
  rw [countBaseTags, countBaseTags, List.length_cons, countBaseTagsAux]
  rcases h with h | h
  · rw [if_neg h]
  · by_cases hs : startsWithBase (c :: cs)
    · rw [if_pos hs, h]
    · rw [if_neg hs]

/-! ### Window analysis for the base-tag scanner -/

theorem startsWithBase_append {u : List Char} (v : List Char) (h : 5 ≤ u.length) :
    startsWithBase (u ++ v) ↔ startsWithBase u := by
  rcases u with _ | ⟨a, _ | ⟨b, _ | ⟨c, _ | ⟨d, _ | ⟨e, u⟩⟩⟩⟩⟩
  · exact absurd h (by decide)
  · exact absurd h (by simp)
  · exact absurd h (by simp)
  · exact absurd h (by simp)
  · exact absurd h (by simp)
  · exact Iff.rfl

theorem swb_lt_at1 (a : Char) (l : List Char) : ¬ startsWithBase (a :: '<' :: l) := by
  intro h
  rcases l with _ | ⟨c2, _ | ⟨c3, _ | ⟨c4, l⟩⟩⟩
  · exact h
  · exact h
  · exact h
  · exact absurd h.2.1 (by decide)

theorem swb_lt_at2 (a b : Char) (l : List Char) : ¬ startsWithBase (a :: b :: '<' :: l) := by
  intro h
  rcases l with _ | ⟨c3, _ | ⟨c4, l⟩⟩
  · exact h
  · exact h
  · exact absurd h.2.2.1 (by decide)

theorem swb_lt_at3 (a b c : Char) (l : List Char) :
    ¬ startsWithBase (a :: b :: c :: '<' :: l) := by
  intro h
  rcases l with _ | ⟨c4, l⟩
  · exact h
  · exact absurd h.2.2.2.1 (by decide)

theorem swb_lt_at4 (a b c d : Char) (l : List Char) :
    ¬ startsWithBase (a :: b :: c :: d :: '<' :: l) := by
  intro h
  exact absurd h.2.2.2.2 (by decide)

theorem swb_cross_refute {u : List Char} (rest : List Char) (hne : u ≠ [])
    (hlen : u.length ≤ 4) : ¬ startsWithBase (u ++ '<' :: rest) := by
  rcases u with _ | ⟨a, _ | ⟨b, _ | ⟨c, _ | ⟨d, u⟩⟩⟩⟩
  · exact absurd rfl hne
  · exact swb_lt_at1 a rest
  · exact swb_lt_at2 a b rest
  · exact swb_lt_at3 a b c rest
  · have h4 : u = [] := by
      have hlen' : u.length + 4 ≤ 4 := by simpa using hlen
      exact List.eq_nil_of_length_eq_zero (by omega)
    subst h4
    exact swb_lt_at4 a b c d rest

/-! ### Inert scanning and counting -/

theorem noStart_count_zero {l : List Char}
    (h : ∀ i, i < l.length → ¬ startsWithBase (l.drop i)) : countBaseTags l = 0 := by
  induction l with
  | nil => rfl
  | cons c cs ih =>
    rw [countBaseTags_cons_nomatch (Or.inl (by simpa using h 0 (by simp)))]
    exact ih (fun i hi => by simpa using h (i + 1) (by simpa using hi))

theorem scan_inert_count (X R : List Char)
    (h : ∀ i, i < X.length → ¬ startsWithBase (X.drop i ++ R)) :
    countBaseTags (X ++ R) = countBaseTags R := by
  induction X with
  | nil => rfl
  | cons x X ih =>
    rw [List.cons_append, countBaseTags_cons_nomatch (Or.inl (by simpa using h 0 (by simp)))]
    exact ih (fun i hi => by simpa using h (i + 1) (by simpa using hi))

theorem scan_inert_remove (X R : List Char)
    (h : ∀ i, i < X.length → ¬ startsWithBase (X.drop i ++ R)) :
    removeBaseTags (X ++ R) = X ++ removeBaseTags R := by
  induction X with
  | nil => rfl
  | cons x X ih =>
    rw [List.cons_append, removeBaseTags_cons_nomatch (Or.inl (by simpa using h 0 (by simp)))]
    rw [List.cons_append]
    exact congrArg (x :: ·) (ih (fun i hi => by simpa using h (i + 1) (by simpa using hi)))

/-! ### Consuming a base-like tag in one match -/

theorem consume_base_like (mid Y : List Char) (hmid : '>' ∉ mid) :
    removeBaseTags ('<' :: 'b' :: 'a' :: 's' :: 'e' :: (mid ++ '>' :: Y)) = removeBaseTags Y ∧
    countBaseTags ('<' :: 'b' :: 'a' :: 's' :: 'e' :: (mid ++ '>' :: Y)) = 1 + countBaseTags Y := by
  have hs : startsWithBase ('<' :: 'b' :: 'a' :: 's' :: 'e' :: (mid ++ '>' :: Y)) :=
    ⟨by decide, by decide, by decide, by decide, by decide⟩
  have hd : dropThroughGt (('b' :: 'a' :: 's' :: 'e' :: (mid ++ '>' :: Y)).drop 4) = some Y :=
    dropThroughGt_append Y hmid
  exact ⟨removeBaseTags_cons_match hs hd, countBaseTags_cons_match hs hd⟩

theorem baseTagOf_append (href Y : List Char) :
    baseTagOf href ++ Y =
      '<' :: 'b' :: 'a' :: 's' :: 'e' ::
        ((' ' :: 'h' :: 'r' :: 'e' :: 'f' :: '=' :: '"' :: (href ++ [ '"' ])) ++ '>' :: Y) := by
  simp [baseTagOf]

theorem base_tag_scan (href Y : List Char) (hgt : '>' ∉ href) :
    removeBaseTags (baseTagOf href ++ Y) = removeBaseTags Y ∧
    countBaseTags (baseTagOf href ++ Y) = 1 + countBaseTags Y := by
  rw [baseTagOf_append]
  refine consume_base_like _ Y ?_
  intro hmem
  exact hgt (by simpa using hmem)

theorem bf_scan (Y : List Char) :
    removeBaseTags (bfTag ++ Y) = removeBaseTags Y := by
  have h := (consume_base_like
    ('f' :: 'o' :: 'n' :: 't' :: ' ' :: 's' :: 'i' :: 'z' :: 'e' :: '=' :: '"' :: '3' :: '"' :: [])
    Y (by decide)).1
  exact h

/-! ### Facts about `jsIndexOf?` -/

theorem jsIndexOf?_prefix {pat : List Char} :
    ∀ {l : List Char} {i : Nat}, jsIndexOf? pat l = some i →
      pat.isPrefixOf (l.drop i) = true := by
  intro l
  induction l with
  | nil =>
    intro i h
    rw [jsIndexOf?] at h
    by_cases hp : pat = []
    · rw [if_pos hp] at h
      cases h
      simp [hp, List.isPrefixOf]
    · rw [if_neg hp] at h
      cases h
  | cons c cs ih =>
    intro i h
    rw [jsIndexOf?] at h
    by_cases hp : pat.isPrefixOf (c :: cs) = true
    · rw [if_pos hp] at h
      cases h
      exact hp
    · rw [if_neg hp] at h
      rcases Option.map_eq_some'.mp h with ⟨i', hi', rfl⟩
      exact ih hi'

theorem jsIndexOf?_of_first {pat : List Char} :
    ∀ {l : List Char} {i : Nat}, pat.isPrefixOf (l.drop i) = true →
      (∀ j, j < i → pat.isPrefixOf (l.drop j) = false) →
      jsIndexOf? pat l = some i := by
  intro l
  induction l with
  | nil =>
    intro i h1 h2
    have hp : pat = [] := by
      cases pat with
      | nil => rfl
      | cons p ps => simp [List.isPrefixOf] at h1
    have hi : i = 0 := by
      by_contra hne
      have := h2 0 (Nat.pos_of_ne_zero hne)
      rw [hp] at this
      simp [List.isPrefixOf] at this
    subst hi
    rw [jsIndexOf?, if_pos hp]
  | cons c cs ih =>
    intro i h1 h2
    cases i with
    | zero =>
      have h1' : pat.isPrefixOf (c :: cs) = true := h1
      rw [jsIndexOf?, if_pos h1']
    | succ i' =>
      have h0 : pat.isPrefixOf (c :: cs) = false := h2 0 (Nat.succ_pos i')
      rw [jsIndexOf?, if_neg (by simp [h0])]
      have := ih (by simpa using h1) (fun j hj => by simpa using h2 (j + 1) (by omega))
      rw [this]
      rfl

theorem jsIndexOf?_of_none {pat : List Char} :
    ∀ {l : List Char}, (∀ j, pat.isPrefixOf (l.drop j) = false) →
      jsIndexOf? pat l = none := by
  intro l
  induction l with
  | nil =>
    intro h
    have hp : pat ≠ [] := by
      intro hp
      have := h 0
      rw [hp] at this
      simp [List.isPrefixOf] at this
    rw [jsIndexOf?, if_neg hp]
  | cons c cs ih =>
    intro h
    have h0 : pat.isPrefixOf (c :: cs) = false := h 0
    rw [jsIndexOf?, if_neg (by simp [h0])]
    rw [ih (fun j => by simpa using h (j + 1))]
    rfl

/-! ### Locating the closing bracket after a found head tag -/

theorem lowerList_drop (l : List Char) (i : Nat) :
    (lowerList l).drop i = lowerList (l.drop i) := by
  simp [lowerList, List.map_drop]

theorem head_prefix_structure {w : List Char}
    (h : headPat.isPrefixOf (lowerList w) = true) :
    ∃ c0 c1 c2 c3 c4 c5 rest, w = c0 :: c1 :: c2 :: c3 :: c4 :: c5 :: rest ∧
      lowerChar c0 = '<' ∧ lowerChar c1 = 'h' ∧ lowerChar c2 = 'e' ∧
      lowerChar c3 = 'a' ∧ lowerChar c4 = 'd' ∧ lowerChar c5 = '>' := by
  rcases w with _ | ⟨c0, _ | ⟨c1, _ | ⟨c2, _ | ⟨c3, _ | ⟨c4, _ | ⟨c5, rest⟩⟩⟩⟩⟩⟩ <;>
    simp [List.isPrefixOf, lowerList, headPat] at h
  exact ⟨c0, c1, c2, c3, c4, c5, rest, rfl, h.1.symm, h.2.1.symm, h.2.2.1.symm,
    h.2.2.2.1.symm, h.2.2.2.2.1.symm, h.2.2.2.2.2.symm⟩

theorem jsIndexOf?_gt_head (l : List Char) : jsIndexOf? [ '>' ] ('>' :: l) = some 0 := by
  rw [jsIndexOf?, if_pos (by simp [List.isPrefixOf])]

theorem jsIndexOf?_gt_cons {c : Char} (hc : c ≠ '>') (l : List Char) :
    jsIndexOf? [ '>' ] (c :: l) = (jsIndexOf? [ '>' ] l).map (· + 1) := by
  have hfalse : (([ '>' ] : List Char).isPrefixOf (c :: l)) = false := by
    simp [List.isPrefixOf]
    exact fun h => hc h.symm
  rw [jsIndexOf?, if_neg (by simp [hfalse])]

theorem jsIndexOf?_gt_five (c0 c1 c2 c3 c4 : Char) (rest : List Char)
    (h0 : c0 ≠ '>') (h1 : c1 ≠ '>') (h2 : c2 ≠ '>') (h3 : c3 ≠ '>') (h4 : c4 ≠ '>') :
    jsIndexOf? [ '>' ] (c0 :: c1 :: c2 :: c3 :: c4 :: '>' :: rest) = some 5 := by
  rw [jsIndexOf?_gt_cons h0, jsIndexOf?_gt_cons h1, jsIndexOf?_gt_cons h2,
    jsIndexOf?_gt_cons h3, jsIndexOf?_gt_cons h4, jsIndexOf?_gt_head]
  rfl

theorem headFound_structure {l : List Char} {i : Nat}
    (h : jsIndexOf? headPat (lowerList l) = some i) :
    jsIndexOfFrom [ '>' ] l i = some (i + 5) ∧
    ∃ c0 c1 c2 c3 c4 rest, l.drop i = c0 :: c1 :: c2 :: c3 :: c4 :: '>' :: rest := by
  have hpre := jsIndexOf?_prefix h
  rw [lowerList_drop] at hpre
  rcases head_prefix_structure hpre with
    ⟨c0, c1, c2, c3, c4, c5, rest, hw, h0, h1, h2, h3, h4, h5⟩
  have hc5 : c5 = '>' := lowerChar_eq_gt h5
  subst hc5
  have hn0 : c0 ≠ '>' := ne_gt_of_lowerChar (by decide) h0
  have hn1 : c1 ≠ '>' := ne_gt_of_lowerChar (by decide) h1
  have hn2 : c2 ≠ '>' := ne_gt_of_lowerChar (by decide) h2
  have hn3 : c3 ≠ '>' := ne_gt_of_lowerChar (by decide) h3
  have hn4 : c4 ≠ '>' := ne_gt_of_lowerChar (by decide) h4
  constructor
  · rw [jsIndexOfFrom, hw, jsIndexOf?_gt_five c0 c1 c2 c3 c4 rest hn0 hn1 hn2 hn3 hn4,
      Option.map_some']
    exact congrArg some (Nat.add_comm 5 i)
  · exact ⟨c0, c1, c2, c3, c4, rest, hw⟩

/-! ### Windows over a prefix of a clean string -/

theorem swb_length {u : List Char} (h : startsWithBase u) : 5 ≤ u.length := by
  rcases u with _ | ⟨a, _ | ⟨b, _ | ⟨c, _ | ⟨d, _ | ⟨e, u⟩⟩⟩⟩⟩
  · exact h.elim
  · exact h.elim
  · exact h.elim
  · exact h.elim
  · exact h.elim
  · simp

theorem noBaseStart_take {l : List Char} (h : noBaseStart l) (k : Nat) :
    noBaseStart (l.take k) := by
  intro i hi hswb
  have hicl : i < l.length := by
    rw [List.length_take] at hi
    omega
  apply h i hicl
  have h5 : 5 ≤ ((l.take k).drop i).length := swb_length hswb
  have heq : (l.take k).drop i ++ (l.drop i).drop (k - i) = l.drop i := by
    rw [List.drop_take]
    exact List.take_append_drop _ _
  rw [← heq]
  exact (startsWithBase_append _ h5).mpr hswb

theorem inert_windows {X : List Char} (hX : noBaseStart X) (rest : List Char) :
    ∀ i, i < X.length → ¬ startsWithBase (X.drop i ++ '<' :: rest) := by
  intro i hi
  by_cases h5 : 5 ≤ (X.drop i).length
  · rw [startsWithBase_append _ h5]
    exact hX i hi
  · have hne : X.drop i ≠ [] := by
      have hpos : 0 < (X.drop i).length := by
        rw [List.length_drop]
        omega
      exact List.ne_nil_of_length_pos hpos
    exact swb_cross_refute rest hne (by omega)

/-! ### Claim C1 -/

/-- C1, corrected: the original claim fails when a single removal pass splices
a new base tag together (see `c1_counterexample`).  Amended: when the removal
pass leaves no case-insensitive `<base` occurrence in the cleaned markup, the
output of `injectBaseHref` with a well-formed base-tag string (href free of
`'>'`) contains exactly one base tag, namely the supplied one; and with an
empty base-tag string `injectBaseHref` returns its raw-markup input
unchanged. -/
theorem c1_exactly_one_base_tag (raw href : List Char) (hgt : '>' ∉ href)
    (hclean : noBaseStart (removeBaseTags raw)) :
    countBaseTags (injectBaseHref raw (baseTagOf href)) = 1 ∧
    ∀ r : List Char, injectBaseHref r [] = r := by
  constructor
  · have hne : baseTagOf href ≠ [] := by simp [baseTagOf]
    cases hidx : jsIndexOf? headPat (lowerList (removeBaseTags raw)) with
    | none =>
      simp only [injectBaseHref, if_neg hne, hidx]
      rw [(base_tag_scan href (removeBaseTags raw) hgt).2]
      rw [noStart_count_zero hclean]
    | some i =>
      rcases headFound_structure hidx with ⟨hfrom, _⟩
      simp only [injectBaseHref, if_neg hne, hidx, hfrom]
      have h1 : countBaseTags ((removeBaseTags raw).take (i + 5 + 1) ++
          (baseTagOf href ++ (removeBaseTags raw).drop (i + 5 + 1))) =
          countBaseTags (baseTagOf href ++ (removeBaseTags raw).drop (i + 5 + 1)) := by
        apply scan_inert_count
        intro j hj
        exact inert_windows (noBaseStart_take hclean (i + 5 + 1)) _ j hj
      rw [← List.append_assoc] at h1
      rw [h1, (base_tag_scan href ((removeBaseTags raw).drop (i + 5 + 1)) hgt).2]
      have h2 : countBaseTags ((removeBaseTags raw).drop (i + 5 + 1)) = 0 := by
        apply noStart_count_zero
        intro j hj
        rw [List.drop_drop]
        apply hclean
        rw [List.length_drop] at hj
        omega
      rw [h2]
  · intro r
    simp [injectBaseHref]

/-- C1 counterexample: for raw markup `<ba<base>se>`, removing `<base>` splices
the remaining text into a fresh `<base ...>` tag, so the output of
`injectBaseHref` contains two base tags, not exactly one. -/
theorem c1_counterexample :
    countBaseTags (injectBaseHref ("<ba<base>se>".toList) (baseTagOf ("u/".toList))) = 2 := by
  decide

/-- C1 witness: a document with one existing base tag, cleanly removed. -/
theorem c1_witness :
    countBaseTags (injectBaseHref ("<head><base href=\"old\"></head>".toList)
      (baseTagOf ("u/".toList))) = 1 :=
  (c1_exactly_one_base_tag ("<head><base href=\"old\"></head>".toList) ("u/".toList)
    (by decide) (by decide)).1

/-! ### Claim C2 -/

/-- C2: for any non-empty base-tag string, `injectBaseHref` inserts the tag
immediately after the closing `'>'` of the first case-insensitive literal
`<head>` of the cleaned markup when one exists (the `<head>` occupies indices
`i..i+5`, so the insertion point is `i+6`); when no such head tag exists, the
base tag is prepended to the start of the (cleaned) document. -/
theorem c2_insertion_position (raw tag : List Char) (htag : tag ≠ []) :
    (∀ i, firstHeadAt (removeBaseTags raw) i →
      injectBaseHref raw tag =
        (removeBaseTags raw).take (i + 6) ++ tag ++ (removeBaseTags raw).drop (i + 6)) ∧
    (noHeadTag (removeBaseTags raw) →
      injectBaseHref raw tag = tag ++ removeBaseTags raw) := by
  constructor
  · intro i hfirst
    have hidx : jsIndexOf? headPat (lowerList (removeBaseTags raw)) = some i :=
      jsIndexOf?_of_first hfirst.1 hfirst.2
    rcases headFound_structure hidx with ⟨hfrom, _⟩
    simp only [injectBaseHref, if_neg htag, hidx, hfrom]
  · intro hno
    have hidx : jsIndexOf? headPat (lowerList (removeBaseTags raw)) = none :=
      jsIndexOf?_of_none hno
    simp only [injectBaseHref, if_neg htag, hidx]

/-- C2 witness: a plain `<head>` document, insertion at index 6. -/
theorem c2_witness :
    injectBaseHref ("<head><p></p></head>".toList) ("<base>".toList) =
      (removeBaseTags ("<head><p></p></head>".toList)).take 6 ++ "<base>".toList ++
        (removeBaseTags ("<head><p></p></head>".toList)).drop 6 :=
  (c2_insertion_position ("<head><p></p></head>".toList) ("<base>".toList)
    (by decide)).1 0 (by decide)

/-! ### Claim C5 -/

/-- C5: the base-injection function of the extension host (`injectBaseHref`)
and the copy embedded in the client-side control script
(`injectBaseHrefIntoString`) compute the same output on every input pair. -/
theorem c5_parity : ∀ rawHtml baseTag : List Char,
    injectBaseHref rawHtml baseTag = injectBaseHrefIntoString rawHtml baseTag :=
  fun _ _ => rfl

/-! ### Claim C9 -/

/-- C9 counterexample: on an empty raw-markup string with a non-empty base-tag
string, `injectBaseHref` is not a no-op: it returns the base tag, which
differs from the empty input. -/
theorem c9_counterexample :
    injectBaseHref [] ("<base href=\"u/\">".toList) = "<base href=\"u/\">".toList ∧
    "<base href=\"u/\">".toList ≠ ([] : List Char) := by
  decide

/-- C9, corrected: `injectBaseHref` is a strict no-op when the base-tag string
is empty; on an empty raw-markup string it returns the base-tag string itself
(prepending it to the empty document), not the empty input. -/
theorem c9_empty_inputs (tag : List Char) :
    (∀ raw : List Char, injectBaseHref raw [] = raw) ∧ injectBaseHref [] tag = tag := by
  constructor
  · intro raw
    simp [injectBaseHref]
  · by_cases h : tag = []
    · subst h
      simp [injectBaseHref]
    · simp only [injectBaseHref, if_neg h]
      rw [show jsIndexOf? headPat (lowerList (removeBaseTags ([] : List Char))) = none from rfl]
      simp [removeBaseTags_nil]

/-! ### Claim C10 -/

/-- C10: the removal pass of `injectBaseHref` deletes every tag whose name
merely begins with `base`: a `<basefont size="3">` tag is removed whole from
any markup whose other text contains no case-insensitive `<base` start.  And
only the literal attribute-free `<head>` is recognized for insertion: a
document whose head tag carries attributes gets the base tag prepended to the
document start instead. -/
theorem c10_scan_quirks :
    (∀ X Y : List Char, noBaseStart X →
      removeBaseTags (X ++ bfTag ++ Y) = X ++ removeBaseTags Y) ∧
    (∀ tag : List Char, tag ≠ [] →
      injectBaseHref headAttrsDoc tag = tag ++ headAttrsDoc) := by
  constructor
  · intro X Y hX
    have h1 := scan_inert_remove X (bfTag ++ Y) (fun i hi => inert_windows hX _ i hi)
    rw [List.append_assoc, h1, bf_scan Y]
  · intro tag htag
    simp only [injectBaseHref, if_neg htag]
    rw [show removeBaseTags headAttrsDoc = headAttrsDoc from by decide]
    rw [show jsIndexOf? headPat (lowerList headAttrsDoc) = none from by decide]

/-- C10 witness: concrete surrounding markup for the removal law, and a
concrete base tag for the attributed-head document. -/
theorem c10_witness :
    removeBaseTags ("<p>".toList ++ bfTag ++ "</p>".toList) =
      "<p>".toList ++ removeBaseTags ("</p>".toList) ∧
    injectBaseHref headAttrsDoc ("<base>".toList) = "<base>".toList ++ headAttrsDoc :=
  ⟨c10_scan_quirks.1 ("<p>".toList) ("</p>".toList) (by decide),
   c10_scan_quirks.2 ("<base>".toList) (by decide)⟩

/-! ### Claim C6 -/

theorem replaceAmp_cons_amp (cs : List Char) :
    replaceAmp ('&' :: cs) = '&' :: 'a' :: 'm' :: 'p' :: ';' :: replaceAmp cs := by
  simp [replaceAmp]

theorem replaceAmp_cons_ne {c : Char} (hc : c ≠ '&') (cs : List Char) :
    replaceAmp (c :: cs) = c :: replaceAmp cs := by
  simp [replaceAmp, hc]

theorem replaceQuot_cons_quot (cs : List Char) :
    replaceQuot ('"' :: cs) = '&' :: 'q' :: 'u' :: 'o' :: 't' :: ';' :: replaceQuot cs := by
  simp [replaceQuot]

theorem replaceQuot_cons_ne {c : Char} (hc : c ≠ '"') (cs : List Char) :
    replaceQuot (c :: cs) = c :: replaceQuot cs := by
  simp [replaceQuot, hc]

theorem replaceQuot_amp_block (X : List Char) :
    replaceQuot ('&' :: 'a' :: 'm' :: 'p' :: ';' :: X) =
      '&' :: 'a' :: 'm' :: 'p' :: ';' :: replaceQuot X := by
  rw [replaceQuot_cons_ne (by decide), replaceQuot_cons_ne (by decide),
    replaceQuot_cons_ne (by decide), replaceQuot_cons_ne (by decide),
    replaceQuot_cons_ne (by decide)]

theorem decodeAttr_cons_ne {c : Char} (hc : c ≠ '&') (l : List Char) :
    decodeAttr (c :: l) = c :: decodeAttr l := by
  rw [decodeAttr.eq_def]
  split
  · next heq => rw [List.cons.injEq] at heq; exact absurd heq.1 hc
  · next heq => rw [List.cons.injEq] at heq; exact absurd heq.1 hc
  · next c' cs' heq => rw [List.cons.injEq] at heq; rw [heq.1, heq.2]
  · next heq => cases heq

/-- C6: the attribute escaper replaces `&` before `"` (so the escape of a
literal `"` is `&quot;`, never a double-escaped `&amp;quot;`), and decoding
the escaped result with an HTML-attribute parser recovers the original string,
for every input string. -/
theorem c6_escape_order_roundtrip :
    (∀ s : List Char, escapeHtmlForAttributeValue s = replaceQuot (replaceAmp s)) ∧
    escapeHtmlForAttributeValue [ '"' ] = [ '&', 'q', 'u', 'o', 't', ';' ] ∧
    (∀ s : List Char, decodeAttr (escapeHtmlForAttributeValue s) = s) := by
  refine ⟨fun s => rfl, by decide, ?_⟩
  intro s
  induction s with
  | nil => rfl
  | cons c cs ih =>
    have ih' : decodeAttr (replaceQuot (replaceAmp cs)) = cs := ih
    show decodeAttr (replaceQuot (replaceAmp (c :: cs))) = c :: cs
    by_cases hamp : c = '&'
    · subst hamp
      rw [replaceAmp_cons_amp, replaceQuot_amp_block]
      show '&' :: decodeAttr (replaceQuot (replaceAmp cs)) = '&' :: cs
      rw [ih']
    · by_cases hquot : c = '"'
      · subst hquot
        rw [replaceAmp_cons_ne (by decide), replaceQuot_cons_quot]
        show '"' :: decodeAttr (replaceQuot (replaceAmp cs)) = '"' :: cs
        rw [ih']
      · rw [replaceAmp_cons_ne hamp, replaceQuot_cons_ne hquot,
          decodeAttr_cons_ne hamp, ih']

/-! ### Claim C7 -/

/-- C7: `updateWebviewContent` rebuilds the full host page exactly when
`forceHtmlReset` is set or the surface has no host page yet (and then posts no
message); otherwise it posts exactly one incremental message, whose shape is
always `updateContent` carrying the document's raw text unescaped. -/
theorem c7_update_dispatch (panel : WebPanel) (docText nonce : List Char)
    (documentUri : Option DocUri) (webviewParentUrl : Option (List Char))
    (forceHtmlReset : Bool) :
    ((forceHtmlReset = true ∨ panel.html = none) →
      updateWebviewContent panel docText nonce documentUri webviewParentUrl forceHtmlReset =
        ({ html := some (getWebviewHtml nonce docText documentUri webviewParentUrl) }, [])) ∧
    (forceHtmlReset = false → panel.html ≠ none →
      updateWebviewContent panel docText nonce documentUri webviewParentUrl forceHtmlReset =
        (panel, [ { command := "updateContent".toList, html := docText } ])) ∧
    (∀ m ∈ (updateWebviewContent panel docText nonce documentUri webviewParentUrl
        forceHtmlReset).2,
      m.command = "updateContent".toList ∧ m.html = docText) := by
  refine ⟨?_, ?_, ?_⟩
  · intro h
    have hcond : (forceHtmlReset || panel.html.isNone) = true := by
      rcases h with h | h
      · simp [h]
      · simp [h]
    simp [updateWebviewContent, hcond]
  · intro hf hn
    have hcond : (forceHtmlReset || panel.html.isNone) = false := by
      rcases hp : panel.html with _ | v
      · exact absurd hp hn
      · simp [hf, hp]
    simp [updateWebviewContent, hcond]
  · intro m hm
    by_cases hcond : (forceHtmlReset || panel.html.isNone) = true
    · simp [updateWebviewContent, hcond] at hm
    · rw [updateWebviewContent, if_neg (by simp [hcond])] at hm
      rcases List.mem_singleton.mp hm with rfl
      exact ⟨rfl, rfl⟩

/-- C7 witness: a loaded, unforced surface receives exactly the incremental
message. -/
theorem c7_witness :
    updateWebviewContent ⟨some (getWebviewHtml [] [] none none)⟩ ("<p>x</p>".toList)
      [] none none false =
      (⟨some (getWebviewHtml [] [] none none)⟩,
        [ { command := "updateContent".toList, html := "<p>x</p>".toList } ]) :=
  (c7_update_dispatch ⟨some (getWebviewHtml [] [] none none)⟩ ("<p>x</p>".toList)
    [] none none false).2.1 rfl (by simp)

/-! ### Claim C8 -/

/-- C8: the base-href resolver returns the empty string when the document
location is absent or not filesystem-backed (and when URI virtualization
fails); otherwise it wraps the virtualized parent-directory URL — extended
with a trailing path separator when it lacks one — as `<base href="...">`,
and the wrapped href always ends with the separator. -/
theorem c8_base_href :
    (∀ (uri : DocUri) (u : Option (List Char)), uri.scheme ≠ fileScheme →
      getBaseHrefString (some uri) u = []) ∧
    (∀ u : Option (List Char), getBaseHrefString none u = []) ∧
    (∀ uri : DocUri, uri.scheme = fileScheme → getBaseHrefString (some uri) none = []) ∧
    (∀ (uri : DocUri) (u : List Char), uri.scheme = fileScheme →
      getBaseHrefString (some uri) (some u) =
        "<base href=\"".toList ++ (if endsWithSlash u then u else u ++ [ '/' ]) ++
          "\">".toList ∧
      endsWithSlash (if endsWithSlash u then u else u ++ [ '/' ]) = true) := by
  refine ⟨?_, ?_, ?_, ?_⟩
  · intro uri u h
    simp [getBaseHrefString, h]
  · intro u
    rfl
  · intro uri h
    simp [getBaseHrefString, h]
  · intro uri u h
    refine ⟨by simp [getBaseHrefString, h], ?_⟩
    by_cases hs : endsWithSlash u = true
    · simp [hs]
    · rw [if_neg (by simp [hs])]
      simp [endsWithSlash, List.getLast?_concat]

/-- C8 witness: a filesystem-backed location whose virtualized parent URL
lacks the trailing separator. -/
theorem c8_witness :
    getBaseHrefString (some ⟨fileScheme⟩) (some ("vr://a/proj".toList)) =
      "<base href=\"".toList ++
        (if endsWithSlash ("vr://a/proj".toList) then "vr://a/proj".toList
         else "vr://a/proj".toList ++ [ '/' ]) ++ "\">".toList ∧
    endsWithSlash (if endsWithSlash ("vr://a/proj".toList) then "vr://a/proj".toList
      else "vr://a/proj".toList ++ [ '/' ]) = true :=
  c8_base_href.2.2.2 ⟨fileScheme⟩ ("vr://a/proj".toList) rfl

/-! ### Registry lemmas -/

theorem lookupReg_some_mem : ∀ {r : List (Nat × Nat)} {d v : Nat},
    lookupReg r d = some v → (d, v) ∈ r := by
  intro r
  induction r with
  | nil => intro d v h; cases h
  | cons p r ih =>
    intro d v h
    rcases p with ⟨k, w⟩
    rw [lookupReg] at h
    by_cases hk : k = d
    · rw [if_pos hk] at h
      cases h
      subst hk
      exact List.mem_cons_self _ _
    · rw [if_neg hk] at h
      exact List.mem_cons_of_mem _ (ih h)

theorem lookupReg_none_keys : ∀ {r : List (Nat × Nat)} {d : Nat},
    lookupReg r d = none → d ∉ r.map Prod.fst := by
  intro r
  induction r with
  | nil => intro d _ h; cases h
  | cons p r ih =>
    intro d h hmem
    rcases p with ⟨k, w⟩
    rw [lookupReg] at h
    by_cases hk : k = d
    · rw [if_pos hk] at h; cases h
    · rw [if_neg hk] at h
      rcases List.mem_cons.mp hmem with hd | hd
      · exact hk hd.symm
      · exact ih h hd

theorem lookupReg_filter_ne (r : List (Nat × Nat)) (d : Nat) :
    lookupReg (r.filter (fun p => p.1 != d)) d = none := by
  induction r with
  | nil => rfl
  | cons p r ih =>
    rcases p with ⟨k, w⟩
    by_cases hk : k = d
    · subst hk
      rw [List.filter_cons, if_neg (by simp)]
      exact ih
    · rw [List.filter_cons, if_pos (by simpa using hk)]
      rw [lookupReg, if_neg hk]
      exact ih

theorem regStep_inv {s : RegSt} (hinv : RegInv s) (e : PEvent) :
    RegInv (regStep s e).1 := by
  rcases e with d | d
  · rcases h : lookupReg s.reg d with _ | pid
    · refine ⟨?_, ?_⟩
      · simp only [regStep, h]
        exact List.Nodup.cons (lookupReg_none_keys h) hinv.1
      · simp only [regStep, h]
        intro p hp
        rcases List.mem_cons.mp hp with rfl | hp
        · exact Nat.lt_succ_self _
        · exact Nat.lt_trans (hinv.2 p hp) (Nat.lt_succ_self _)
    · simpa only [regStep, h] using hinv
  · rcases h : lookupReg s.reg d with _ | pid
    · simpa only [regStep, h] using hinv
    · refine ⟨?_, ?_⟩
      · simp only [regStep, h]
        exact List.Nodup.sublist ((List.filter_sublist _).map _) hinv.1
      · simp only [regStep, h]
        intro p hp
        exact hinv.2 p (List.mem_of_mem_filter hp)

theorem regRun_inv (evs : List PEvent) : RegInv (regRun evs) := by
  have aux : ∀ (l : List PEvent) (s : RegSt), RegInv s →
      RegInv (l.foldl (fun s e => (regStep s e).1) s) := by
    intro l
    induction l with
    | nil => intro s h; exact h
    | cons e l ih => intro s h; exact ih _ (regStep_inv h e)
  exact aux evs regInit ⟨List.nodup_nil, by intro p hp; cases hp⟩

/-! ### Claim C4 -/

/-- C4: the registry never holds two surfaces for one identity; a preview
request for a registered identity reveals the existing surface and refreshes
it in place (`force = false`) without touching the registry; and after
disposal the entry is gone, so the next preview request for that identity
creates a brand-new surface (a panel handle distinct from the disposed
one). -/
theorem c4_registry_invariant :
    (∀ evs : List PEvent, ((regRun evs).reg.map Prod.fst).Nodup) ∧
    (∀ (s : RegSt) (d pid : Nat), lookupReg s.reg d = some pid →
      regStep s (.preview d) = (s, [ .reveal pid, .update pid false ])) ∧
    (∀ (evs : List PEvent) (d pid : Nat), lookupReg (regRun evs).reg d = some pid →
      lookupReg ((regStep (regRun evs) (.close d)).1).reg d = none ∧
      lookupReg ((regStep ((regStep (regRun evs) (.close d)).1) (.preview d)).1).reg d =
        some ((regStep (regRun evs) (.close d)).1).nextId ∧
      RegAction.create d ((regStep (regRun evs) (.close d)).1).nextId ∈
        (regStep ((regStep (regRun evs) (.close d)).1) (.preview d)).2 ∧
      ((regStep (regRun evs) (.close d)).1).nextId ≠ pid) := by
  refine ⟨?_, ?_, ?_⟩
  · intro evs
    exact (regRun_inv evs).1
  · intro s d pid h
    simp [regStep, h]
  · intro evs d pid h
    have hpid : pid < (regRun evs).nextId :=
      (regRun_inv evs).2 _ (lookupReg_some_mem h)
    have hclose : (regStep (regRun evs) (.close d)).1 =
        { reg := (regRun evs).reg.filter (fun p => p.1 != d),
          nextId := (regRun evs).nextId } := by
      simp [regStep, h]
    have h1 : lookupReg ((regStep (regRun evs) (.close d)).1).reg d = none := by
      rw [hclose]
      exact lookupReg_filter_ne _ _
    refine ⟨h1, ?_, ?_, ?_⟩
    · rw [hclose]
      simp only [regStep, lookupReg_filter_ne]
      rw [lookupReg, if_pos rfl]
    · rw [hclose]
      simp only [regStep, lookupReg_filter_ne]
      exact List.mem_cons_self _ _
    · rw [hclose]
      exact Nat.ne_of_gt hpid

/-- C4 witness: preview document 0, dispose its panel, preview again: the
entry was removed, a fresh panel with a new handle is created. -/
theorem c4_witness :
    lookupReg ((regStep (regRun [ PEvent.preview 0 ]) (.close 0)).1).reg 0 = none ∧
    lookupReg ((regStep ((regStep (regRun [ PEvent.preview 0 ]) (.close 0)).1)
        (.preview 0)).1).reg 0 =
      some ((regStep (regRun [ PEvent.preview 0 ]) (.close 0)).1).nextId ∧
    RegAction.create 0 ((regStep (regRun [ PEvent.preview 0 ]) (.close 0)).1).nextId ∈
      (regStep ((regStep (regRun [ PEvent.preview 0 ]) (.close 0)).1) (.preview 0)).2 ∧
    ((regStep (regRun [ PEvent.preview 0 ]) (.close 0)).1).nextId ≠ 0 :=
  c4_registry_invariant.2.2 [ PEvent.preview 0 ] 0 0 (by decide)

/-! ### Debounce lemmas -/

theorem fireDue_none {s : DebSt} (now : Nat) (hp : s.pending = none) :
    fireDue s now = (s, []) := by
  rw [fireDue, hp]

theorem fireDue_stay {s : DebSt} {now dl pd : Nat} (hp : s.pending = some (dl, pd))
    (h : ¬ dl ≤ now) : fireDue s now = (s, []) := by
  simp only [fireDue, hp]
  rw [if_neg h]

theorem fireDue_fire {s : DebSt} {now dl pd : Nat} (hp : s.pending = some (dl, pd))
    (h : dl ≤ now) :
    fireDue s now = (⟨s.text, none⟩, [ (dl, pd, s.text pd) ]) := by
  simp only [fireDue, hp]
  rw [if_pos h]

theorem fireDue_text (s : DebSt) (now : Nat) : (fireDue s now).1.text = s.text := by
  rcases hp : s.pending with _ | ⟨dl, pd⟩
  · rw [fireDue_none now hp]
  · by_cases h : dl ≤ now
    · rw [fireDue_fire hp h]
    · rw [fireDue_stay hp h]

theorem fireDue_pending (s : DebSt) (now : Nat) :
    (fireDue s now).1.pending = none ∨ (fireDue s now).1.pending = s.pending := by
  rcases hp : s.pending with _ | ⟨dl, pd⟩
  · rw [fireDue_none now hp]
    exact Or.inl hp
  · by_cases h : dl ≤ now
    · rw [fireDue_fire hp h]
      exact Or.inl rfl
    · rw [fireDue_stay hp h]
      exact Or.inr hp

theorem debStep_snd (panels : List Nat) (s : DebSt) (e : Ev) :
    (debStep panels s e).2 = (fireDue s e.t).2 := by
  simp only [debStep]
  split <;> rfl

theorem debStep_pending_mem (panels : List Nat) (s : DebSt) (e : Ev) (hm : e.d ∈ panels) :
    (debStep panels s e).1.pending = some (e.t + 300, e.d) := by
  simp only [debStep]
  rw [if_pos hm]

theorem debStep_pending_not_mem (panels : List Nat) (s : DebSt) (e : Ev) (hm : e.d ∉ panels) :
    (debStep panels s e).1.pending = (fireDue s e.t).1.pending := by
  simp only [debStep]
  rw [if_neg hm]

theorem debStep_text (panels : List Nat) (s : DebSt) (e : Ev) :
    (debStep panels s e).1.text =
      fun i => if i = e.d then e.txt else (fireDue s e.t).1.text i := by
  simp only [debStep]
  split <;> rfl

theorem debRun_sound (panels : List Nat) :
    ∀ (es : List Ev) (s : DebSt),
      es.Pairwise (fun a b => a.t < b.t) →
      (∀ dl d, s.pending = some (dl, d) → d ∈ panels) →
      ∀ o ∈ debRun panels s es, JustOut es o ∨ FromPend panels s es o := by
  intro es
  induction es with
  | nil =>
    intro s _ _ o ho
    rw [debRun, debFlush] at ho
    rcases hp : s.pending with _ | ⟨dl, pd⟩
    · rw [hp] at ho
      cases ho
    · rw [hp] at ho
      rcases List.mem_singleton.mp ho with rfl
      right
      refine ⟨hp, rfl, ?_⟩
      intro e' he'
      exact absurd he' (List.not_mem_nil e')
  | cons f es ih =>
    intro s hsort hpp o ho
    have hsort' : es.Pairwise (fun a b => a.t < b.t) := (List.pairwise_cons.mp hsort).2
    have hfirst : ∀ e' ∈ es, f.t < e'.t := (List.pairwise_cons.mp hsort).1
    rw [debRun] at ho
    rcases List.mem_append.mp ho with hfire | htail
    · rw [debStep_snd] at hfire
      rcases hp : s.pending with _ | ⟨dl, pd⟩
      · rw [fireDue_none f.t hp] at hfire
        cases hfire
      · by_cases hdl : dl ≤ f.t
        · rw [fireDue_fire hp hdl] at hfire
          rcases List.mem_singleton.mp hfire with rfl
          right
          refine ⟨hp, rfl, ?_⟩
          intro e' he' _ hlt
          rcases List.mem_cons.mp he' with rfl | he'
          · exact absurd hlt (by omega)
          · exact absurd hlt (by have := hfirst e' he'; omega)
        · rw [fireDue_stay hp hdl] at hfire
          cases hfire
    · have hpp' : ∀ dl d, (debStep panels s f).1.pending = some (dl, d) → d ∈ panels := by
        intro dl d hpd
        by_cases hm : f.d ∈ panels
        · rw [debStep_pending_mem panels s f hm] at hpd
          have hd : f.d = d := congrArg Prod.snd (Option.some.inj hpd)
          exact hd ▸ hm
        · rw [debStep_pending_not_mem panels s f hm] at hpd
          rcases fireDue_pending s f.t with h0 | h0
          · rw [h0] at hpd
            exact Option.noConfusion hpd
          · rw [h0] at hpd
            exact hpp dl d hpd
      rcases ih (debStep panels s f).1 hsort' hpp' o htail with hJ | hF
      · left
        rcases hJ with ⟨e, he, hed, htxt, htime, hwin⟩
        refine ⟨e, List.mem_cons_of_mem f he, hed, htxt, htime, ?_⟩
        intro e' he' hd'
        rcases List.mem_cons.mp he' with rfl | he'
        · exact Or.inl (Nat.le_of_lt (hfirst e he))
        · exact hwin e' he' hd'
      · rcases hF with ⟨hpend, htxt, hwin⟩
        by_cases hm : f.d ∈ panels
        · left
          rw [debStep_pending_mem panels s f hm] at hpend
          have hpair : (f.t + 300, f.d) = (o.1, o.2.1) := Option.some.inj hpend
          have h1 : f.t + 300 = o.1 := congrArg Prod.fst hpair
          have h2 : f.d = o.2.1 := congrArg Prod.snd hpair
          simp only [debStep_text] at htxt
          rw [if_pos h2.symm] at htxt
          refine ⟨f, List.mem_cons_self f es, h2, htxt.symm, h1.symm, ?_⟩
          intro e' he' hd'
          rcases List.mem_cons.mp he' with rfl | he'
          · exact Or.inl (Nat.le_refl _)
          · right
            have hmem : e'.d ∈ panels := by
              rw [hd', ← h2]
              exact hm
            exact Nat.le_of_not_lt (hwin e' he' hmem)
        · right
          rw [debStep_pending_not_mem panels s f hm] at hpend
          rcases fireDue_pending s f.t with h0 | h0
          · rw [h0] at hpend
            exact Option.noConfusion hpend
          · rw [h0] at hpend
            have hod : o.2.1 ∈ panels := hpp o.1 o.2.1 hpend
            have hodf : o.2.1 ≠ f.d := fun hh => hm (hh ▸ hod)
            refine ⟨hpend, ?_, ?_⟩
            · simp only [debStep_text] at htxt
              rw [if_neg hodf, fireDue_text] at htxt
              exact htxt
            · intro e' he' hmem hlt
              rcases List.mem_cons.mp he' with rfl | he'
              · exact hm hmem
              · exact hwin e' he' hmem hlt

/-! ### Claim C3 -/

/-- C3: two edits to the same previewed document within 300ms produce exactly
one dispatched update, carrying the later edit's content; every dispatched
update is justified by the most recent edit to its target document, fires
300ms after it, with no other edit to that document in between; and a
document that is never edited never receives an update dispatch. -/
theorem c3_debounce (panels : List Nat) :
    (∀ (d t1 t2 : Nat) (a b : List Char), d ∈ panels → t1 < t2 → t2 < t1 + 300 →
      debRun panels debInit [ ⟨t1, d, a⟩, ⟨t2, d, b⟩ ] = [ (t2 + 300, d, b) ]) ∧
    (∀ es : List Ev, es.Pairwise (fun x y => x.t < y.t) →
      ∀ o ∈ debRun panels debInit es, JustOut es o) ∧
    (∀ (es : List Ev) (d : Nat), es.Pairwise (fun x y => x.t < y.t) →
      (∀ e ∈ es, e.d ≠ d) → ∀ o ∈ debRun panels debInit es, o.2.1 ≠ d) := by
  have hinit : ∀ dl d0, debInit.pending = some (dl, d0) → d0 ∈ panels := by
    intro dl d0 h
    exact Option.noConfusion h
  refine ⟨?_, ?_, ?_⟩
  · intro d t1 t2 a b hm ht12 ht300
    have hp1 : (debStep panels debInit ⟨t1, d, a⟩).1.pending = some (t1 + 300, d) :=
      debStep_pending_mem panels debInit ⟨t1, d, a⟩ hm
    have hstep1 : (debStep panels debInit ⟨t1, d, a⟩).2 = [] := by
      rw [debStep_snd, fireDue_none _ rfl]
    have hle : ¬ t1 + 300 ≤ (⟨t2, d, b⟩ : Ev).t := by
      show ¬ t1 + 300 ≤ t2
      omega
    have hstep2 : (debStep panels (debStep panels debInit ⟨t1, d, a⟩).1 ⟨t2, d, b⟩).2 = [] := by
      rw [debStep_snd, fireDue_stay hp1 hle]
    have hp2 : (debStep panels (debStep panels debInit ⟨t1, d, a⟩).1 ⟨t2, d, b⟩).1.pending
        = some (t2 + 300, d) :=
      debStep_pending_mem panels (debStep panels debInit ⟨t1, d, a⟩).1 ⟨t2, d, b⟩ hm
    have htext2 : (debStep panels (debStep panels debInit ⟨t1, d, a⟩).1 ⟨t2, d, b⟩).1.text d
        = b := by
      rw [debStep_text]
      simp
    simp only [debRun, debFlush, hstep1, hstep2, hp2, htext2]
    simp
  · intro es hs o ho
    rcases debRun_sound panels es debInit hs hinit o ho with h | h
    · exact h
    · exact Option.noConfusion h.1
  · intro es d hs hnd o ho
    rcases debRun_sound panels es debInit hs hinit o ho with hJ | hF
    · rcases hJ with ⟨e, he, hed, _⟩
      intro hod
      exact hnd e he (hed.trans hod)
    · exact Option.noConfusion hF.1

/-- C3 witness: two edits to document 0 at times 0 and 100 yield the single
update (400, 0, later text). -/
theorem c3_witness :
    debRun [ 0 ] debInit [ ⟨0, 0, "a".toList⟩, ⟨100, 0, "ab".toList⟩ ] =
      [ (400, 0, "ab".toList) ] :=
  (c3_debounce [ 0 ]).1 0 0 100 ("a".toList) ("ab".toList) (by decide) (by decide) (by decide)
